import Mathlib

/-!
Shallow embedding of the `predicates` library (`predicates/__init__.py`).

Python values are modelled by a small universe `Value` (None, bool, int,
str). A call is an explicit pair of a positional-argument list and a
keyword-argument association list (dict iteration order), following the
spec's call-representation note. Predicates may raise, so they return in
`Except PyError`; Python's `all(...)`/`any(...)` over generators are
modelled by short-circuiting monadic folds, preserving evaluation order.
-/

namespace Predicates

/-- The universe of Python values used as arguments. All of these are
hashable in Python; container values (which are unhashable) are not
needed by any predicate modelled here. -/
inductive Value where
  | none : Value
  | bool (b : Bool) : Value
  | int (i : Int) : Value
  | str (s : String) : Value
deriving DecidableEq, Repr

/-- Python exceptions relevant to the library: `ValueError` raised by
construction-time validation, `TypeError` raised by `len()` on an
unsized value, and an arbitrary user exception raised by a predicate. -/
inductive PyError where
  | valueError : PyError
  | typeError : PyError
  | raised : PyError
deriving DecidableEq, Repr

/-- A predicate over a single value (may raise). -/
def ValuePred : Type := Value → Except PyError Bool

/-- A predicate over a full call `(*args, **kwargs)` (may raise).
Keyword arguments are an association list in dict iteration order. -/
def CallPred : Type := List Value → List (String × Value) → Except PyError Bool

/-- Python's `all(f(x) for x in l)`: left-to-right, short-circuits at the
first false, propagates the first exception. -/
def pyAll {α : Type} (f : α → Except PyError Bool) : List α → Except PyError Bool
  | [] => .ok true
  | x :: xs => do
    let b ← f x
    if b then pyAll f xs else pure false

/-- Python's `any(f(x) for x in l)`: left-to-right, short-circuits at the
first true, propagates the first exception. -/
def pyAny {α : Type} (f : α → Except PyError Bool) : List α → Except PyError Bool
  | [] => .ok false
  | x :: xs => do
    let b ← f x
    if b then pure true else pyAny f xs

/-- `_and(*predicates)`: true if all predicates are true on the call. -/
def _and (predicates : List CallPred) : CallPred :=
  fun args kwargs => pyAll (fun pred => pred args kwargs) predicates

/-- `_or(*predicates)`: true if any predicate is true on the call. -/
def _or (predicates : List CallPred) : CallPred :=
  fun args kwargs => pyAny (fun pred => pred args kwargs) predicates

/-- `_not(*predicates)`: true if none of the predicates is true. -/
def _not (predicates : List CallPred) : CallPred :=
  fun args kwargs => do
    let b ← pyAny (fun pred => pred args kwargs) predicates
    pure (!b)

/-- `_zip(*predicates)`: applies `predicates[i]` to `args[i]`, truncating
to the shorter of the two sequences; ignores keyword arguments. -/
def _zip (predicates : List ValuePred) : CallPred :=
  fun args _kwargs =>
    pyAll (fun pa => pa.1 pa.2) (predicates.zip args)

/-- `_all(predicate)`: true if `predicate` holds for all positional args. -/
def _all (predicate : ValuePred) : CallPred :=
  fun args _kwargs => pyAll predicate args

/-- `_any(predicate)`: true if `predicate` holds for any positional arg. -/
def _any (predicate : ValuePred) : CallPred :=
  fun args _kwargs => pyAny predicate args

/-- `_none(predicate)`: `all(not predicate(arg) for arg in args)`. -/
def _none (predicate : ValuePred) : CallPred :=
  fun args _kwargs => pyAll (fun a => do pure (!(← predicate a))) args

/-- A Python `slice(start, stop, step)` object; `Option.none` models a
`None` component. -/
structure PySlice where
  start : Option Int
  stop : Option Int
  step : Option Int
deriving DecidableEq, Repr

/-- A key given to `ArgSlicer.__getitem__`: a bare integer or a slice. -/
inductive SliceKey where
  | int (i : Int) : SliceKey
  | slice (s : PySlice) : SliceKey
deriving DecidableEq, Repr

/-- The key normalization performed at the top of
`ArgSlicer.__getitem__`: `key if isslice(key) else slice(key, key+1) if
key >= 0 else slice(key, None)`. -/
def normKey : SliceKey → PySlice
  | .slice s => s
  | .int i =>
    if i ≥ 0 then ⟨some i, some (i + 1), Option.none⟩
    else ⟨some i, Option.none, Option.none⟩

/-- CPython's clamping of one slice bound against an actual length `L`
(`PySlice_Unpack`/`PySlice_AdjustIndices` semantics, positive and
negative step): `none` becomes the default for that end, a negative
bound is taken from the end, and everything is clamped into range. -/
def resolveBound (L lower upper : Int) (dflt : Int) : Option Int → Int
  | Option.none => dflt
  | some v => if v < 0 then max (v + L) lower else min v upper

/-- The list of indices a slice denotes against a list of length `len`
(the indices enumerated by `range(*slice.indices(len))`); a zero step is
a `ValueError` as in Python. -/
def sliceIdx (len : Nat) (s : PySlice) : Except PyError (List Int) :=
  let step := s.step.getD 1
  if step = 0 then .error .valueError
  else
    let L : Int := len
    let lower : Int := if step > 0 then 0 else -1
    let upper : Int := if step > 0 then L else L - 1
    let start := resolveBound L lower upper (if step > 0 then lower else upper) s.start
    let stop := resolveBound L lower upper (if step > 0 then upper else lower) s.stop
    let n : Nat :=
      if step > 0 then
        if start < stop then ((stop - start - 1) / step + 1).toNat else 0
      else
        if stop < start then ((start - stop - 1) / (-step) + 1).toNat else 0
    .ok ((List.range n).map (fun k : Nat => start + step * (k : Int)))

/-- `args[key]` for a slice key: the selected sub-list of `args`. -/
def sliceList (s : PySlice) (l : List Value) : Except PyError (List Value) := do
  let idxs ← sliceIdx l.length s
  pure (idxs.filterMap (fun i => l.get? i.toNat))

/-- `kwargs.get(kw, None)`: the value bound to `kw` in the call's
keyword arguments, or Python `None` when the name is absent. -/
def kwGet (kwargs : List (String × Value)) (kw : String) : Value :=
  match kwargs.lookup kw with
  | some v => v
  | Option.none => Value.none

/-- `all(predicate(kwargs.get(kw, None)) for (kw, predicate) in
kw_predicates.items())`. -/
def kwCheck (kwPredicates : List (String × ValuePred))
    (kwargs : List (String × Value)) : Except PyError Bool :=
  pyAll (fun kp => kp.2 (kwGet kwargs kp.1)) kwPredicates

/-- The inner `_args_factory` returned by `ArgSlicer.__getitem__` for an
already-normalized `key`: validates that at least one predicate was
given, then builds the call predicate (keyword-only, positional-only, or
both, with the positional check first and short-circuiting). -/
def _args_factory (key : PySlice) (pos_predicate : Option ValuePred)
    (kw_predicates : List (String × ValuePred)) : Except PyError CallPred :=
  if pos_predicate.isNone && kw_predicates.isEmpty then
    .error .valueError
  else
    match pos_predicate with
    | Option.none =>
      .ok (fun _args kwargs => kwCheck kw_predicates kwargs)
    | some p =>
      let posP := _all p
      if kw_predicates.isEmpty then
        .ok (fun args _kwargs => do posP (← sliceList key args) [])
      else
        .ok (fun args kwargs => do
          let b ← posP (← sliceList key args) []
          if b then kwCheck kw_predicates kwargs else pure false)

/-- `_args[key](...)`: normalizes the key, then builds. -/
def _args_getitem (key : SliceKey) (pos_predicate : Option ValuePred)
    (kw_predicates : List (String × ValuePred)) : Except PyError CallPred :=
  _args_factory (normKey key) pos_predicate kw_predicates

/-- `_args(...)` = `ArgSlicer.__call__`, defined as `self[:](...)`. -/
def _args_call (pos_predicate : Option ValuePred)
    (kw_predicates : List (String × ValuePred)) : Except PyError CallPred :=
  _args_getitem (.slice ⟨Option.none, Option.none, Option.none⟩)
    pos_predicate kw_predicates

/-- Runs a predicate produced by a (possibly failing) factory on a call:
the outer `Except` is the construction outcome, the inner one the call
outcome. -/
def runBuilt (built : Except PyError CallPred) (args : List Value)
    (kwargs : List (String × Value)) : Except PyError (Except PyError Bool) :=
  built.map (fun pred => pred args kwargs)

/-- `isinstance(val, Sized)`: of the modelled values only strings have a
length (`None`, booleans and integers are not `Sized`). -/
def issized : Value → Bool
  | .str _ => true
  | _ => false

/-- `len(val)`: the length of a sized value, `TypeError` otherwise. -/
def pyLen : Value → Except PyError Nat
  | .str s => .ok s.length
  | _ => .error .typeError

/-- `isempty(val)`: `issized(val) and len(val) == 0`. Python's `and`
short-circuits, so an unsized value yields `False` without calling
`len`. -/
def isempty (val : Value) : Except PyError Bool :=
  if issized val then do
    let n ← pyLen val
    pure (n == 0)
  else pure false

/-- One default-`False` keyword of `_nis` and friends: `Option.none`
models the default `False` (for which `x < 0` is Python's `False < 0`,
i.e. false). -/
def negBound : Option Int → Bool
  | some v => v < 0
  | Option.none => false

/-- `_nis(atleast, atmost, exactly)`: validates the count spec
(negative bounds, `exactly` mixed with `atleast`/`atmost`, or no
constraint at all are `ValueError`s), then returns the predicate over a
number: `n == exactly`, or `atleast <= n <= atmost` with defaults
`atleast = 0` and `atmost = float('inf')` (the `Option.none` branch of
`atmost` below: nothing exceeds infinity). -/
def _nis (atleast atmost exactly : Option Int) : Except PyError (Int → Bool) :=
  if negBound atleast || negBound atmost || negBound exactly then
    .error .valueError
  else
    match exactly with
    | some e =>
      if atleast.isSome || atmost.isSome then .error .valueError
      else .ok (fun n => n == e)
    | Option.none =>
      if atleast.isNone && atmost.isNone then .error .valueError
      else
        let al := atleast.getD 0
        match atmost with
        | Option.none => .ok (fun n => al ≤ n)
        | some am => .ok (fun n => al ≤ n && n ≤ am)

/-- `_fnis(func, atleast, atmost, exactly)`: builds the `_nis` range
predicate (propagating its construction-time validation), then composes
it with `func(*args, **kwargs)`. -/
def _fnis (func : List Value → List (String × Value) → Int)
    (atleast atmost exactly : Option Int) : Except PyError CallPred := do
  let nis ← _nis atleast atmost exactly
  pure (fun args kwargs => pure (nis (func args kwargs)))

/-- `_nargs`: `_fnis` with `len(args) + len(kwargs)`. -/
def _nargs (atleast atmost exactly : Option Int) : Except PyError CallPred :=
  _fnis (fun args kwargs => args.length + kwargs.length) atleast atmost exactly

/-- `_npos`: `_fnis` with `len(args)`. -/
def _npos (atleast atmost exactly : Option Int) : Except PyError CallPred :=
  _fnis (fun args _kwargs => args.length) atleast atmost exactly

/-- `_nkw`: `_fnis` with `len(kwargs)`. -/
def _nkw (atleast atmost exactly : Option Int) : Except PyError CallPred :=
  _fnis (fun _args kwargs => kwargs.length) atleast atmost exactly

/-- `_inkw(atleast, atmost, exactly)`: constrains the set of keyword
names. Each spec component is the name list of the mapping or iterable
passed (in iteration order; an iterable may contain duplicates, a
mapping's or set's key list cannot). `exactly` form:
`len(kwargs) == len(exactly) and all(kw in kwargs for kw in exactly)`;
`atleast`/`atmost` form: `frozenset` containments. -/
def _inkw (atleast atmost exactly : Option (List String)) :
    Except PyError CallPred :=
  match exactly with
  | some ex =>
    if atleast.isSome || atmost.isSome then .error .valueError
    else
      .ok (fun _args kwargs =>
        pure (kwargs.length == ex.length
          && ex.all (fun kw => (kwargs.lookup kw).isSome)))
  | Option.none =>
    if atleast.isNone && atmost.isNone then .error .valueError
    else
      let al := atleast.getD []
      match atmost with
      | Option.none =>
        .ok (fun _args kwargs =>
          pure (al.all (fun kw => (kwargs.lookup kw).isSome)))
      | some am =>
        .ok (fun _args kwargs =>
          pure (al.all (fun kw => (kwargs.lookup kw).isSome)
            && kwargs.all (fun kv => am.contains kv.1)))

/-- Python `==` on the modelled values: `True == 1`, `False == 0`
(booleans are numbers), everything else compares within its kind. -/
def numVal : Value → Option Int
  | .bool b => some (if b then 1 else 0)
  | .int i => some i
  | _ => Option.none

/-- Python `==` on the modelled values. -/
def pyEq (a b : Value) : Bool :=
  match numVal a, numVal b with
  | some x, some y => x == y
  | _, _ =>
    match a, b with
    | .none, .none => true
    | .str s, .str t => s == t
    | _, _ => false

/-- `isinstance(val, Hashable)`: every value in the modelled universe
is hashable in Python (no containers are modelled). -/
def ishashable : Value → Bool := fun _ => true

/-- The module-level `__cache_return` dict: keys are the memoized
constants (Python `==`/hash lookup), values are the constants the cached
closures return (a `_return` closure is determined by its constant). -/
abbrev Cache : Type := List (Value × Value)

/-- Dict lookup by Python equality. -/
def cacheLookup (c : Cache) (val : Value) : Option Value :=
  (List.find? (fun kv => pyEq kv.1 val) c).map (fun kv => kv.2)

/-- `_return(val)`: returns (as a call predicate returning a constant)
the memoized constant-returning closure for `val` if one is cached under
a key `== val`, otherwise caches and returns a fresh one; unhashable
values are never cached. The state of `__cache_return` is passed
explicitly. -/
def _return (val : Value) (c : Cache) :
    (List Value → List (String × Value) → Value) × Cache :=
  if ishashable val then
    match cacheLookup c val with
    | some cached => ((fun _ _ => cached), c)
    | Option.none => ((fun _ _ => val), c ++ [(val, val)])
  else ((fun _ _ => val), c)

/-- Module initialization: `true_ = _return(True)` runs on the empty
cache. -/
def returnTrueInit : (List Value → List (String × Value) → Value) × Cache :=
  _return (Value.bool true) []

/-- `true_`. -/
def true_ : List Value → List (String × Value) → Value := returnTrueInit.1

/-- The cache state after `true_ = _return(True)`. -/
def cacheAfterTrue : Cache := returnTrueInit.2

/-- Module initialization: `false_ = _return(False)` runs next. -/
def returnFalseInit : (List Value → List (String × Value) → Value) × Cache :=
  _return (Value.bool false) cacheAfterTrue

/-- `false_`. -/
def false_ : List Value → List (String × Value) → Value := returnFalseInit.1

/-- The cache state after module initialization. -/
def cacheInit : Cache := returnFalseInit.2

/-- `_is(it)`: a wrapper around `operator.is_`; for the modelled
immutable singletons (`None`, `True`, `False`) object identity
coincides with structural equality. -/
def _is (it : Value) : ValuePred := fun obj => pure (obj == it)

/-- `isnone = _is(None)`. -/
def isnone : ValuePred := _is Value.none

/-- `istrue = _is(True)`. -/
def istrue : ValuePred := _is (Value.bool true)

/-- `isfalse = _is(False)`. -/
def isfalse : ValuePred := _is (Value.bool false)

/-- `isint`: `isinstance(obj, int)` (a Python 2 `bool` is an `int`). -/
def isint : ValuePred := fun obj =>
  pure (match obj with | .int _ => true | .bool _ => true | _ => false)

/-- `isstring`: `isinstance(obj, basestring)`. -/
def isstring : ValuePred := fun obj =>
  pure (match obj with | .str _ => true | _ => false)

/-- A call predicate that raises when invoked (the tests' `fail`
helper). -/
def raising : CallPred := fun _ _ => .error .raised

/-- The invariant of the `_return` memo: every cached closure returns
exactly the key it is stored under (`_return` only ever inserts
`(val, val)`). -/
def CacheWF (c : Cache) : Prop := ∀ kv ∈ c, kv.1 = kv.2

/-- Builds the `_nis` range predicate and applies it to `n` (the outer
`Except` is the construction outcome). -/
def nisRun (atleast atmost exactly : Option Int) (n : Int) : Except PyError Bool :=
  (_nis atleast atmost exactly).map (fun f => f n)

/-- The concrete predicate `_args(k=isnone)` builds (keyword-predicates
only path). -/
def kIsNonePred : CallPred := fun _args kwargs => kwCheck [("k", isnone)] kwargs

/-! ### Helper lemmas -/

@[simp]
theorem except_bind_ok {α β : Type} (a : α) (f : α → Except PyError β) :
    (Except.ok a >>= f) = f a := rfl

@[simp]
theorem except_bind_error {α β : Type} (e : PyError) (f : α → Except PyError β) :
    ((Except.error e : Except PyError α) >>= f) = .error e := rfl

theorem pyAll_nil {α : Type} (f : α → Except PyError Bool) :
    pyAll f [] = .ok true := rfl

theorem pyAll_cons {α : Type} (f : α → Except PyError Bool) (x : α) (xs : List α) :
    pyAll f (x :: xs) = (f x >>= fun b => if b then pyAll f xs else pure false) :=
  rfl

theorem pyAny_nil {α : Type} (f : α → Except PyError Bool) :
    pyAny f [] = .ok false := rfl

theorem pyAny_cons {α : Type} (f : α → Except PyError Bool) (x : α) (xs : List α) :
    pyAny f (x :: xs) = (f x >>= fun b => if b then pure true else pyAny f xs) :=
  rfl

theorem pyAll_eq_ok_true {α : Type} (f : α → Except PyError Bool) (l : List α) :
    pyAll f l = .ok true ↔ ∀ x ∈ l, f x = .ok true := by
  induction l with
  | nil => simp [pyAll_nil]
  | cons x xs ih =>
    rw [pyAll_cons]
    cases hx : f x with
    | error e => simp [hx]
    | ok b =>
      cases b with
      | true => simp [hx, ih]
      | false =>
        show (Except.ok false : Except PyError Bool) = .ok true ↔ _
        constructor
        · intro h; exact absurd h (by simp)
        · intro h
          have := h x (List.mem_cons_self x xs)
          rw [hx] at this
          exact absurd this (by simp)

theorem pyAll_congr {α : Type} (f g : α → Except PyError Bool) (l : List α)
    (h : ∀ x ∈ l, f x = g x) : pyAll f l = pyAll g l := by
  induction l with
  | nil => rfl
  | cons x xs ih =>
    rw [pyAll_cons, pyAll_cons, h x (List.mem_cons_self x xs),
      ih (fun y hy => h y (List.mem_cons_of_mem x hy))]

theorem pyAll_append_false {α : Type} (f : α → Except PyError Bool)
    (ps : List α) (x : α) (qs : List α)
    (hps : ∀ y ∈ ps, f y = .ok true) (hx : f x = .ok false) :
    pyAll f (ps ++ x :: qs) = .ok false := by
  induction ps with
  | nil => rw [List.nil_append, pyAll_cons, hx]; rfl
  | cons p ps ih =>
    rw [List.cons_append, pyAll_cons, hps p (List.mem_cons_self p ps)]
    simpa using ih (fun y hy => hps y (List.mem_cons_of_mem p hy))

theorem pyAny_append_true {α : Type} (f : α → Except PyError Bool)
    (ps : List α) (x : α) (qs : List α)
    (hps : ∀ y ∈ ps, f y = .ok false) (hx : f x = .ok true) :
    pyAny f (ps ++ x :: qs) = .ok true := by
  induction ps with
  | nil => rw [List.nil_append, pyAny_cons, hx]; rfl
  | cons p ps ih =>
    rw [List.cons_append, pyAny_cons, hps p (List.mem_cons_self p ps)]
    simpa using ih (fun y hy => hps y (List.mem_cons_of_mem p hy))

theorem range_filterMap_get {α : Type} (l : List α) (s : Nat) (n : Nat) :
    (List.range n).filterMap (fun k => l.get? (s + k)) = (l.drop s).take n := by
  induction n with
  | zero => simp
  | succ n ih =>
    rw [List.range_succ, List.filterMap_append, ih, List.take_succ]
    simp only [List.get?_eq_getElem?, List.getElem?_drop]
    cases h : l[s + n]? <;> simp [List.filterMap_cons, h]

theorem resolveBound_nonneg (L : Int) (dflt : Int) (o : Option Int)
    (hL : 0 ≤ L) (hd : 0 ≤ dflt) : 0 ≤ resolveBound L 0 L dflt o := by
  cases o with
  | none => exact hd
  | some v =>
    simp only [resolveBound]
    split <;> omega

theorem resolveBound_le (L : Int) (dflt : Int) (o : Option Int)
    (hL : 0 ≤ L) (hd : dflt ≤ L) : resolveBound L 0 L dflt o ≤ L := by
  cases o with
  | none => exact hd
  | some v =>
    simp only [resolveBound]
    split <;> omega

/-- A step-1 slice (`step` omitted) selects the contiguous sub-list
between the resolved start and stop bounds. -/
theorem sliceList_step_one (a b : Option Int) (l : List Value) :
    sliceList ⟨a, b, Option.none⟩ l =
      .ok ((l.drop (resolveBound (l.length : Int) 0 (l.length : Int) 0 a).toNat).take
        ((resolveBound (l.length : Int) 0 (l.length : Int) (l.length : Int) b
          - resolveBound (l.length : Int) 0 (l.length : Int) 0 a).toNat)) := by
  have hL : (0 : Int) ≤ (l.length : Int) := Int.ofNat_nonneg _
  have hs0 : 0 ≤ resolveBound (l.length : Int) 0 (l.length : Int) 0 a :=
    resolveBound_nonneg _ 0 a hL le_rfl
  unfold sliceList sliceIdx
  simp only [Option.getD_none, if_neg (by norm_num : ¬ (1 : Int) = 0),
    if_pos (by norm_num : (1 : Int) > 0), except_bind_ok]
  set L : Int := (l.length : Int) with hLdef
  set start := resolveBound L 0 L 0 a with hstart
  set stop := resolveBound L 0 L L b with hstop
  have hn : (if start < stop then ((stop - start - 1) / 1 + 1).toNat else 0)
      = (stop - start).toNat := by
    split <;> omega
  rw [hn]
  congr 1
  rw [List.filterMap_map]
  have hf : ((fun i => l.get? i.toNat) ∘ fun k : Nat => start + 1 * (k : Int))
      = fun k : Nat => l.get? (start.toNat + k) := by
    funext k
    simp only [Function.comp]
    congr 1
    omega
  rw [hf, range_filterMap_get]

/-- A bare non-negative index `i` selects the (at most one-element)
sub-list `args[i:i+1]`. -/
theorem sliceList_int_nonneg (i : Int) (l : List Value) (h : 0 ≤ i) :
    sliceList (normKey (.int i)) l = .ok ((l.drop i.toNat).take 1) := by
  have hk : normKey (.int i) = ⟨some i, some (i + 1), Option.none⟩ := by
    simp [normKey, h]
  rw [hk, sliceList_step_one]
  simp only [resolveBound, if_neg (by omega : ¬ i < 0),
    if_neg (by omega : ¬ i + 1 < 0)]
  by_cases hiL : i < (l.length : Int)
  · have h1 : (min i (l.length : Int)).toNat = i.toNat := by omega
    have h2 : (min (i + 1) (l.length : Int) - min i (l.length : Int)).toNat = 1 := by
      omega
    rw [h1, h2]
  · have h1 : (min i (l.length : Int)).toNat = l.length := by omega
    have h2 : (min (i + 1) (l.length : Int) - min i (l.length : Int)).toNat = 0 := by
      omega
    rw [h1, h2]
    have hd2 : l.drop i.toNat = [] := List.drop_eq_nil_of_le (by omega)
    rw [hd2]
    simp

/-- A bare negative index `i` selects the open-ended suffix `args[i:]`,
whose absolute starting position is re-resolved against the length of
each call's argument list. -/
theorem sliceList_int_neg (i : Int) (l : List Value) (h : i < 0) :
    sliceList (normKey (.int i)) l = .ok (l.drop ((l.length : Int) + i).toNat) := by
  have hk : normKey (.int i) = ⟨some i, Option.none, Option.none⟩ := by
    simp [normKey]
    omega
  rw [hk, sliceList_step_one]
  simp only [resolveBound, if_pos h]
  have h1 : (max (i + (l.length : Int)) 0).toNat = ((l.length : Int) + i).toNat := by
    omega
  rw [h1]
  congr 1
  apply List.take_of_length_le
  rw [List.length_drop]
  omega

/-- Inserting an explicit `None` binding for a name that is absent from
the call leaves every `kwargs.get(kw, None)` lookup unchanged. -/
theorem kwGet_insert_absent (kwargs : List (String × Value)) (k : String)
    (h : kwargs.lookup k = Option.none) (kw : String) :
    kwGet ((k, Value.none) :: kwargs) kw = kwGet kwargs kw := by
  unfold kwGet
  rw [List.lookup_cons]
  by_cases hkw : kw = k
  · subst hkw
    simp [h]
  · simp [beq_eq_false_iff_ne.mpr hkw]

theorem kwCheck_ext (kws : List (String × ValuePred))
    (kwargs₁ kwargs₂ : List (String × Value))
    (h : ∀ kw, kwGet kwargs₁ kw = kwGet kwargs₂ kw) :
    kwCheck kws kwargs₁ = kwCheck kws kwargs₂ := by
  unfold kwCheck
  exact pyAll_congr _ _ kws (fun kp _ => by rw [h kp.1])

/-- A keyword lookup succeeds exactly when the name occurs among the
call's keyword names. -/
theorem lookup_isSome_iff (kwargs : List (String × Value)) (kw : String) :
    (kwargs.lookup kw).isSome = true ↔ kw ∈ kwargs.map Prod.fst := by
  induction kwargs with
  | nil => simp
  | cons kv rest ih =>
    rw [show kv = (kv.1, kv.2) from rfl, List.lookup_cons]
    by_cases hkw : kw = kv.1
    · subst hkw
      simp
    · simp only [beq_eq_false_iff_ne.mpr hkw, List.map_cons, List.mem_cons]
      simp only [ih]
      constructor
      · exact Or.inr
      · rintro (hc | hm)
        · exact absurd hc hkw
        · exact hm

theorem cacheLookup_wf (c : Cache) (val cached : Value) (hwf : CacheWF c)
    (h : cacheLookup c val = some cached) : pyEq cached val = true := by
  unfold cacheLookup at h
  cases hf : List.find? (fun kv => pyEq kv.1 val) c with
  | none => rw [hf] at h; cases h
  | some kv =>
    rw [hf] at h
    have hkv := List.find?_some hf
    simp only [] at hkv
    have hmem : kv ∈ c := List.mem_of_find?_eq_some hf
    have heq : kv.1 = kv.2 := hwf kv hmem
    cases h
    show pyEq kv.2 val = true
    rw [← heq]
    exact hkv

/-! ### Claim theorems -/

/-- C8: vacuous-case identities: `_and()` is always true, `_or()` always
false, `_not()` always true on every call; `_all(p)`, `_any(p)`,
`_none(p)` on a call with zero positional arguments are true, false and
true respectively, and keyword arguments never affect those three. -/
theorem vacuous_identities :
    (∀ (args : List Value) (kwargs : List (String × Value)),
        _and [] args kwargs = .ok true
      ∧ _or [] args kwargs = .ok false
      ∧ _not [] args kwargs = .ok true)
    ∧ (∀ (p : ValuePred) (kwargs : List (String × Value)),
        _all p [] kwargs = .ok true
      ∧ _any p [] kwargs = .ok false
      ∧ _none p [] kwargs = .ok true)
    ∧ (∀ (p : ValuePred) (args : List Value)
        (kwargs₁ kwargs₂ : List (String × Value)),
        _all p args kwargs₁ = _all p args kwargs₂
      ∧ _any p args kwargs₁ = _any p args kwargs₂
      ∧ _none p args kwargs₁ = _none p args kwargs₂) :=
  ⟨fun _ _ => ⟨rfl, rfl, rfl⟩, fun _ _ => ⟨rfl, rfl, rfl⟩,
    fun _ _ _ _ => ⟨rfl, rfl, rfl⟩⟩

/-- C9: `_and` and `_or` short-circuit left to right: once a prefix
yields the deciding value, the remaining predicates (which may raise)
are never evaluated and the overall result is that deciding value. -/
theorem short_circuit_eval :
    (∀ (ps : List CallPred) (p : CallPred) (qs : List CallPred)
        (args : List Value) (kwargs : List (String × Value)),
        (∀ q ∈ ps, q args kwargs = .ok true) → p args kwargs = .ok false →
        _and (ps ++ p :: qs) args kwargs = .ok false)
    ∧ (∀ (ps : List CallPred) (p : CallPred) (qs : List CallPred)
        (args : List Value) (kwargs : List (String × Value)),
        (∀ q ∈ ps, q args kwargs = .ok false) → p args kwargs = .ok true →
        _or (ps ++ p :: qs) args kwargs = .ok true) := by
  constructor
  · intro ps p qs args kwargs hps hp
    exact pyAll_append_false (fun pred => pred args kwargs) ps p qs hps hp
  · intro ps p qs args kwargs hps hp
    exact pyAny_append_true (fun pred => pred args kwargs) ps p qs hps hp

/-- C9 witness: `_and(false, raising)` returns false without raising and
`_or(true, raising)` returns true without raising. -/
theorem short_circuit_eval_witness :
    _and [fun _ _ => pure false, raising] [] [] = .ok false
    ∧ _or [fun _ _ => pure true, raising] [] [] = .ok true :=
  ⟨short_circuit_eval.1 [] (fun _ _ => pure false) [raising] [] []
      (fun q hq => absurd hq (List.not_mem_nil q)) rfl,
    short_circuit_eval.2 [] (fun _ _ => pure true) [raising] [] []
      (fun q hq => absurd hq (List.not_mem_nil q)) rfl⟩

/-- C10: `_zip(p1, ..., pn)` is true exactly when every predicate and
positional argument at a common index (up to the shorter of the two
sequences) satisfies `pi(args[i])`; keyword arguments are ignored, and
an empty side makes it vacuously true. -/
theorem zip_pairwise :
    ∀ (preds : List ValuePred) (args : List Value)
      (kwargs : List (String × Value)),
      (_zip preds args kwargs = .ok true ↔
        ∀ (i : Nat) (p : ValuePred) (a : Value),
          preds.get? i = some p → args.get? i = some a → p a = .ok true)
      ∧ (∀ kwargs₂, _zip preds args kwargs = _zip preds args kwargs₂)
      ∧ _zip preds [] kwargs = .ok true
      ∧ _zip [] args kwargs = .ok true := by
  intro preds args kwargs
  refine ⟨?_, fun _ => rfl, by cases preds <;> rfl, rfl⟩
  unfold _zip
  rw [pyAll_eq_ok_true]
  constructor
  · intro h i p a hp ha
    exact h (p, a)
      (List.mem_iff_get?.mpr ⟨i, (List.get?_zip_eq_some _ _ _ _).mpr ⟨hp, ha⟩⟩)
  · intro h pa hpa
    obtain ⟨i, hi⟩ := List.mem_iff_get?.mp hpa
    obtain ⟨h1, h2⟩ := (List.get?_zip_eq_some _ _ _ _).mp hi
    exact h i pa.1 pa.2 h1 h2

/-- C3 counterexample: `isempty` applied to an integer (which is not
`Sized`) returns the boolean `False`; it does not raise. -/
theorem isempty_unsized_counterexample :
    isempty (Value.int 5) = .ok false ∧ issized (Value.int 5) = false :=
  ⟨rfl, rfl⟩

/-- C3 amended: `isempty` applied to a value that is not `Sized`
returns `False` (the `issized(val) and ...` guard short-circuits); the
failure to measure a length is converted into a boolean result and no
error is raised. -/
theorem isempty_unsized_false (v : Value) (h : issized v = false) :
    isempty v = .ok false := by
  unfold isempty
  rw [h]
  rfl

/-- C3 witness: evaluated at `None`. -/
theorem isempty_unsized_false_witness :
    issized Value.none = false ∧ isempty Value.none = .ok false :=
  ⟨rfl, isempty_unsized_false Value.none rfl⟩

/-- C5: the build stage of the argument-slice factory raises
`ValueError` exactly when neither a positional predicate nor any keyword
predicate is supplied; otherwise construction succeeds. -/
theorem args_factory_validation :
    ∀ (key : PySlice) (pos : Option ValuePred)
      (kws : List (String × ValuePred)),
      ((pos.isNone && kws.isEmpty) = true →
        _args_factory key pos kws = .error .valueError)
      ∧ ((pos.isNone && kws.isEmpty) = false →
        (_args_factory key pos kws).isOk = true) := by
  intro key pos kws
  constructor
  · intro h
    unfold _args_factory
    rw [if_pos h]
  · intro h
    unfold _args_factory
    rw [if_neg (by rw [h]; exact Bool.false_ne_true)]
    cases pos with
    | none => rfl
    | some p =>
      dsimp only
      split <;> rfl

/-- C5 witness: no predicates at all fail at build time; a positional
predicate alone succeeds; keyword predicates alone succeed. -/
theorem args_factory_validation_witness :
    _args_factory ⟨Option.none, Option.none, Option.none⟩ Option.none []
      = .error .valueError
    ∧ (_args_factory ⟨Option.none, Option.none, Option.none⟩ (some isstring) []).isOk
      = true
    ∧ (_args_factory ⟨Option.none, Option.none, Option.none⟩ Option.none
        [("k", isint)]).isOk = true :=
  ⟨(args_factory_validation _ _ _).1 rfl,
    (args_factory_validation _ _ _).2 rfl,
    (args_factory_validation _ _ _).2 rfl⟩

/-- C1 counterexample: the factory passes Python `None` itself — not a
sentinel distinct from `None` — to a per-name predicate whose name is
absent: with the predicate `isnone` (true only at `None`, as the third
conjunct shows it rejects other values), the built predicate accepts a
call with the name absent, and accepts the same call with the name
explicitly bound to `None`, identically. -/
theorem absent_kw_counterexample :
    runBuilt (_args_call Option.none [("k", isnone)]) [] [] = .ok (.ok true)
    ∧ runBuilt (_args_call Option.none [("k", isnone)]) []
        [("k", Value.none)] = .ok (.ok true)
    ∧ isnone (Value.str "x") = .ok false :=
  ⟨rfl, rfl, rfl⟩

/-- C1 amended: when a mapped name is absent from the call's keyword
arguments, the per-name predicate is applied to Python `None`
(`kwargs.get(kw, None)`), not to a sentinel distinct from every real
value: a call in which the name is absent is indistinguishable from the
same call with the name explicitly bound to `None`. -/
theorem absent_kw_passes_none :
    ∀ (key : PySlice) (pos : Option ValuePred)
      (kws : List (String × ValuePred)) (q : CallPred)
      (args : List Value) (kwargs : List (String × Value)) (k : String),
      kwargs.lookup k = Option.none →
      _args_factory key pos kws = .ok q →
      q args kwargs = q args ((k, Value.none) :: kwargs) := by
  intro key pos kws q args kwargs k hlk hq
  have hget : ∀ kw, kwGet kwargs kw = kwGet ((k, Value.none) :: kwargs) kw :=
    fun kw => (kwGet_insert_absent kwargs k hlk kw).symm
  unfold _args_factory at hq
  by_cases hc : (pos.isNone && kws.isEmpty) = true
  · rw [if_pos hc] at hq
    cases hq
  · rw [if_neg hc] at hq
    cases pos with
    | none =>
      cases hq
      exact kwCheck_ext kws kwargs ((k, Value.none) :: kwargs) hget
    | some p =>
      dsimp only at hq
      by_cases hk : kws.isEmpty
      · rw [if_pos hk] at hq
        cases hq
        rfl
      · rw [if_neg hk] at hq
        cases hq
        show (do
            let b ← _all p (← sliceList key args) []
            if b then kwCheck kws kwargs else pure false)
          = (do
            let b ← _all p (← sliceList key args) []
            if b then kwCheck kws ((k, Value.none) :: kwargs) else pure false)
        cases hs : sliceList key args with
        | error e => rfl
        | ok sel =>
          rw [except_bind_ok, except_bind_ok]
          cases hb : _all p sel [] with
          | error e => rfl
          | ok b =>
            cases b with
            | false => rfl
            | true =>
              rw [except_bind_ok, except_bind_ok, if_pos rfl, if_pos rfl]
              exact kwCheck_ext kws kwargs ((k, Value.none) :: kwargs) hget

/-- C1 witness: the `_args(k=isnone)` predicate gives the same result
on `()` (name absent) as on `(k=None)`. -/
theorem absent_kw_passes_none_witness :
    kIsNonePred [] [] = kIsNonePred [] [("k", Value.none)] :=
  absent_kw_passes_none ⟨Option.none, Option.none, Option.none⟩ Option.none
    [("k", isnone)] kIsNonePred [] [] "k" rfl rfl

/-- C2: the `ArgSlicer` key normalization and per-call re-resolution: a
bare non-negative integer `i` becomes the one-element range
`[i, i+1)`, a bare negative integer `i` becomes the open-ended range
`[i, end)`, a slice passes through unchanged, and the resulting
positional selections are re-resolved against each call's actual
positional-argument count (a negative index selects the suffix starting
at `len(args) + i`, so the same built predicate selects different
absolute positions on calls of different lengths). -/
theorem slicer_key_normalization :
    (∀ i : Int, 0 ≤ i → normKey (.int i) = ⟨some i, some (i + 1), Option.none⟩)
    ∧ (∀ i : Int, i < 0 → normKey (.int i) = ⟨some i, Option.none, Option.none⟩)
    ∧ (∀ s : PySlice, normKey (.slice s) = s)
    ∧ (∀ (i : Int) (l : List Value), 0 ≤ i →
        sliceList (normKey (.int i)) l = .ok ((l.drop i.toNat).take 1))
    ∧ (∀ (i : Int) (l : List Value), i < 0 →
        sliceList (normKey (.int i)) l
          = .ok (l.drop ((l.length : Int) + i).toNat))
    ∧ (∀ (i : Int) (p : ValuePred) (q : CallPred) (args : List Value)
        (kwargs : List (String × Value)), i < 0 →
        _args_getitem (.int i) (some p) [] = .ok q →
        q args kwargs = pyAll p (args.drop ((args.length : Int) + i).toNat)) := by
  refine ⟨fun i h => by simp [normKey, h],
    fun i h => by simp [normKey]; omega,
    fun s => rfl,
    sliceList_int_nonneg,
    sliceList_int_neg,
    ?_⟩
  intro i p q args kwargs h hq
  unfold _args_getitem _args_factory at hq
  dsimp only at hq
  cases hq
  show (do _all p (← sliceList (normKey (.int i)) args) []) = _
  rw [sliceList_int_neg i args h, except_bind_ok]
  rfl

/-- C2 witness: a non-negative key normalizes to a one-element range, a
slice passes through, and the key `-1` selects the last positional
argument of a length-3 call and of a length-4 call (different absolute
positions for the same key). -/
theorem slicer_key_normalization_witness :
    normKey (.int 2) = ⟨some 2, some 3, Option.none⟩
    ∧ normKey (.int (-1)) = ⟨some (-1), Option.none, Option.none⟩
    ∧ normKey (.slice ⟨some 0, Option.none, some 2⟩)
      = ⟨some 0, Option.none, some 2⟩
    ∧ sliceList (normKey (.int (-1)))
        [Value.int 4, Value.int 8, Value.str "x"] = .ok [Value.str "x"]
    ∧ sliceList (normKey (.int (-1)))
        [Value.int 4, Value.int 8, Value.int 15, Value.str "y"]
      = .ok [Value.str "y"] := by
  refine ⟨?_, ?_, slicer_key_normalization.2.2.1 _, ?_, ?_⟩
  · have h := slicer_key_normalization.1 2 (by norm_num)
    rw [h]
    norm_num
  · exact slicer_key_normalization.2.1 (-1) (by norm_num)
  · rw [slicer_key_normalization.2.2.2.2.1 (-1)
      [Value.int 4, Value.int 8, Value.str "x"] (by norm_num)]
    rfl
  · rw [slicer_key_normalization.2.2.2.2.1 (-1)
      [Value.int 4, Value.int 8, Value.int 15, Value.str "y"] (by norm_num)]
    rfl

theorem pyEq_refl (v : Value) : pyEq v v = true := by
  cases v <;> simp [pyEq, numVal]

/-- C4 counterexample: the `_return` memo is keyed by Python `==` (and
`hash`), under which `True == 1`: after module initialization has
memoized `_return(True)` (as `true_`), `_return(1)` returns the cached
predicate, whose result is `True`, not the integer `1`. -/
theorem return_memo_counterexample :
    (_return (Value.int 1) cacheAfterTrue).1 [] [] = Value.bool true
    ∧ Value.bool true ≠ Value.int 1 :=
  ⟨rfl, by decide⟩

/-- C4 amended: the `_return` memo is observable only up to Python
`==`: on any well-formed cache the predicate `_return(u)` yields always
returns a value `== u` (though possibly of a different type, e.g.
`True` for `1`), the cache stays well-formed, and on an empty cache the
returned value is exactly `u`. -/
theorem return_memo_pyeq :
    ∀ (val : Value) (c : Cache) (args : List Value)
      (kwargs : List (String × Value)),
      CacheWF c →
      pyEq ((_return val c).1 args kwargs) val = true
      ∧ CacheWF ((_return val c).2)
      ∧ (_return val []).1 args kwargs = val := by
  intro val c args kwargs hwf
  refine ⟨?_, ?_, rfl⟩
  · unfold _return
    cases hl : cacheLookup c val with
    | none => simp [ishashable, hl, pyEq_refl]
    | some cached => simp [ishashable, hl, cacheLookup_wf c val cached hwf hl]
  · unfold _return
    cases hl : cacheLookup c val with
    | none =>
      simp only [ishashable, if_pos rfl, hl]
      intro kv hkv
      rcases List.mem_append.mp hkv with hm | hm
      · exact hwf kv hm
      · rcases List.mem_singleton.mp hm with rfl
        rfl
    | some cached => simpa [ishashable, hl] using hwf

/-- C4 witness: applied after module initialization memoized `True`. -/
theorem return_memo_pyeq_witness :
    pyEq ((_return (Value.int 1) cacheAfterTrue).1 [] []) (Value.int 1) = true :=
  (return_memo_pyeq (Value.int 1) cacheAfterTrue [] []
    (by
      intro kv hkv
      rw [show cacheAfterTrue = [(Value.bool true, Value.bool true)] from rfl]
        at hkv
      rcases List.mem_singleton.mp hkv with rfl
      rfl)).1

theorem fnis_error_iff (func : List Value → List (String × Value) → Int)
    (al am ex : Option Int) :
    _fnis func al am ex = .error .valueError ↔ _nis al am ex = .error .valueError := by
  unfold _fnis
  cases h : _nis al am ex with
  | error e =>
    simp only [h, except_bind_error]
    constructor
    · intro he
      cases he
      rfl
    · intro he
      cases he
      rfl
  | ok f =>
    simp only [h, except_bind_ok]
    constructor
    · intro he; cases he
    · intro he; cases he

/-- C6: `_nis` validates its count spec at construction (negative
bound, `exactly` mixed with `atleast`/`atmost`, or no constraint given
each raise `ValueError`), `_nargs`/`_npos`/`_nkw` (via `_fnis`) fail
exactly when `_nis` fails, and an accepted spec yields the predicate
`n == exactly` in the exactly form and `atleast <= n <= atmost` (with
defaults `atleast = 0` and `atmost = +infinity`) in the range form. -/
theorem nis_validation :
    (∀ al am ex : Option Int,
        (negBound al || negBound am || negBound ex) = true →
        _nis al am ex = .error .valueError)
    ∧ (∀ (al am : Option Int) (e : Int), (al.isSome || am.isSome) = true →
        _nis al am (some e) = .error .valueError)
    ∧ _nis Option.none Option.none Option.none = .error .valueError
    ∧ (∀ al am ex : Option Int,
        (_nargs al am ex = .error .valueError ↔ _nis al am ex = .error .valueError)
        ∧ (_npos al am ex = .error .valueError ↔ _nis al am ex = .error .valueError)
        ∧ (_nkw al am ex = .error .valueError ↔ _nis al am ex = .error .valueError))
    ∧ (∀ e n : Int, 0 ≤ e →
        nisRun Option.none Option.none (some e) n = .ok (n == e))
    ∧ (∀ al am n : Int, 0 ≤ al → 0 ≤ am →
        nisRun (some al) (some am) Option.none n
          = .ok (decide (al ≤ n) && decide (n ≤ am)))
    ∧ (∀ al n : Int, 0 ≤ al →
        nisRun (some al) Option.none Option.none n = .ok (decide (al ≤ n)))
    ∧ (∀ am n : Int, 0 ≤ am →
        nisRun Option.none (some am) Option.none n
          = .ok (decide ((0 : Int) ≤ n) && decide (n ≤ am))) := by
  refine ⟨?_, ?_, rfl, ?_, ?_, ?_, ?_, ?_⟩
  · intro al am ex h
    unfold _nis
    rw [if_pos h]
  · intro al am e h
    unfold _nis
    split
    · rfl
    · simp [h]
  · intro al am ex
    exact ⟨fnis_error_iff _ al am ex, fnis_error_iff _ al am ex,
      fnis_error_iff _ al am ex⟩
  · intro e n h
    unfold nisRun _nis
    rw [if_neg (by simp [negBound]; omega)]
    rfl
  · intro al am n h1 h2
    unfold nisRun _nis
    rw [if_neg (by simp [negBound]; omega)]
    rfl
  · intro al n h
    unfold nisRun _nis
    rw [if_neg (by simp [negBound]; omega)]
    rfl
  · intro am n h
    unfold nisRun _nis
    rw [if_neg (by simp [negBound]; omega)]
    rfl

/-- C6 witness: concrete validation failures and accepted specs. -/
theorem nis_validation_witness :
    _nis (some (-1)) Option.none Option.none = .error .valueError
    ∧ _nis (some 1) Option.none (some 2) = .error .valueError
    ∧ (_nargs (some 1) Option.none (some 2) = .error .valueError
        ↔ _nis (some 1) Option.none (some 2) = .error .valueError)
    ∧ nisRun Option.none Option.none (some 2) 2 = .ok true
    ∧ nisRun (some 1) (some 3) Option.none 2 = .ok true
    ∧ nisRun (some 1) Option.none Option.none 5 = .ok true
    ∧ nisRun Option.none (some 3) Option.none 4 = .ok false := by
  refine ⟨nis_validation.1 (some (-1)) Option.none Option.none (by decide),
    nis_validation.2.1 (some 1) Option.none 2 (by decide),
    (nis_validation.2.2.2.1 (some 1) Option.none (some 2)).1,
    ?_, ?_, ?_, ?_⟩
  · rw [nis_validation.2.2.2.2.1 2 2 (by norm_num)]
    rfl
  · rw [nis_validation.2.2.2.2.2.1 1 3 2 (by norm_num) (by norm_num)]
    rfl
  · rw [nis_validation.2.2.2.2.2.2.1 1 5 (by norm_num)]
    rfl
  · rw [nis_validation.2.2.2.2.2.2.2 3 4 (by norm_num)]
    rfl

/-- C7 counterexample: `_inkw` in the exactly form compares
`len(kwargs)` with the raw length of the `exactly` iterable, not with
the size of its name set: for the duplicate-carrying iterable
`['a', 'a']`, a call whose keyword-name set `{'a'}` equals the `exactly`
name set (and has the same size, 1, as that set — second and third
conjuncts) is nevertheless rejected. -/
theorem inkw_exactly_counterexample :
    runBuilt (_inkw Option.none Option.none (some ["a", "a"])) []
        [("a", Value.none)] = .ok (.ok false)
    ∧ (["a", "a"] : List String).toFinset = (["a"] : List String).toFinset
    ∧ (([("a", Value.none)] : List (String × Value)).map Prod.fst).toFinset
      = (["a", "a"] : List String).toFinset := by
  refine ⟨rfl, by decide, by decide⟩

/-- C7 amended: provided the `exactly` collection contains no duplicate
names (always true for a mapping or set), the exactly form is true iff
the call's keyword-name set equals the `exactly` name set; positional
arguments and keyword values never affect the result (the right-hand
side depends only on the keyword names). -/
theorem inkw_exactly_set (ex : List String) (args : List Value)
    (kwargs : List (String × Value)) (hex : ex.Nodup)
    (hkw : (kwargs.map Prod.fst).Nodup) :
    runBuilt (_inkw Option.none Option.none (some ex)) args kwargs
      = .ok (.ok (decide ((kwargs.map Prod.fst).toFinset = ex.toFinset))) := by
  show Except.ok (Except.ok (kwargs.length == ex.length
    && ex.all (fun kw => (kwargs.lookup kw).isSome))) = _
  congr 1
  congr 1
  rw [Bool.eq_iff_iff]
  simp only [Bool.and_eq_true, beq_iff_eq, List.all_eq_true, decide_eq_true_eq]
  constructor
  · rintro ⟨hlen, hmem⟩
    have hsub : ex.toFinset ⊆ (kwargs.map Prod.fst).toFinset := by
      intro kw hkwmem
      rw [List.mem_toFinset] at hkwmem ⊢
      exact (lookup_isSome_iff kwargs kw).mp (hmem kw hkwmem)
    have hcard : (kwargs.map Prod.fst).toFinset.card ≤ ex.toFinset.card := by
      rw [List.toFinset_card_of_nodup hkw, List.toFinset_card_of_nodup hex,
        List.length_map]
      omega
    exact (Finset.eq_of_subset_of_card_le hsub hcard).symm
  · intro heq
    constructor
    · have := congrArg Finset.card heq
      rw [List.toFinset_card_of_nodup hkw, List.toFinset_card_of_nodup hex,
        List.length_map] at this
      exact this
    · intro kw hkwmem
      rw [lookup_isSome_iff, ← List.mem_toFinset, heq, List.mem_toFinset]
      exact hkwmem

/-- C7 witness: `exactly = ['a', 'b']` (no duplicates) against the call
`(b=1, a='x')`. -/
theorem inkw_exactly_set_witness :
    runBuilt (_inkw Option.none Option.none (some ["a", "b"])) []
        [("b", Value.int 1), ("a", Value.str "x")] = .ok (.ok true) := by
  have h := inkw_exactly_set ["a", "b"] []
    [("b", Value.int 1), ("a", Value.str "x")] (by decide) (by decide)
  rw [h]
  have h2 : decide (([("b", Value.int 1), ("a", Value.str "x")].map
      (Prod.fst (α := String) (β := Value))).toFinset
      = (["a", "b"] : List String).toFinset) = true := by decide
  rw [h2]

end Predicates
